import Mathlib

/-!
Verification of the taxi-trip cleaning and extrema-analysis pipeline.

The cleaning stage (clean.py) is embedded as pure list transformations:
timestamps are integers (seconds since the Unix epoch), SQL DOUBLE columns
are rationals, and each SQL clause is translated literally.  The analysis
stage (analysis.py) is embedded the same way; window functions
(ROW_NUMBER ... ORDER BY metric) are modelled with their stable list
semantics: within a partition, ties on the ORDER BY key resolve to the
first occurrence in the underlying list.
-/

/-- TIMESTAMP literal 2024-01-01 00:00:00 as Unix seconds. -/
def ts20240101 : Int := 1704067200

/-- TIMESTAMP literal 2025-01-01 00:00:00 as Unix seconds. -/
def ts20250101 : Int := 1735689600

/-- INTERVAL 24 HOUR in seconds. -/
def interval24h : Int := 86400

/-- A raw yellow-taxi row with its source column names (clean.py `base` CTE
selects and casts exactly these columns from `yellow_trips_2024`). -/
structure YellowRaw where
  tpep_pickup_datetime : Int
  tpep_dropoff_datetime : Int
  passenger_count : Int
  trip_distance : ℚ
  VendorID : Int
  PULocationID : Int
  DOLocationID : Int
  total_amount : ℚ
deriving DecidableEq, Repr

/-- A raw green-taxi row with its source column names (clean.py
`make_green_sql`, lpep timestamps). -/
structure GreenRaw where
  lpep_pickup_datetime : Int
  lpep_dropoff_datetime : Int
  passenger_count : Int
  trip_distance : ℚ
  VendorID : Int
  PULocationID : Int
  DOLocationID : Int
  total_amount : ℚ
deriving DecidableEq, Repr

/-- The canonical cleaned-schema row produced by the `base` CTE of both
cleaning queries (clean.py lines 35-48 and 77-90). -/
structure Trip where
  pickup_datetime : Int
  dropoff_datetime : Int
  passenger_count : Int
  trip_distance : ℚ
  vendor_id : Int
  pu_location_id : Int
  do_location_id : Int
  total_amount : ℚ
deriving DecidableEq, Repr

/-- Column renaming/casting of the yellow `base` CTE. -/
def yellowCast (r : YellowRaw) : Trip :=
  ⟨r.tpep_pickup_datetime, r.tpep_dropoff_datetime, r.passenger_count,
   r.trip_distance, r.VendorID, r.PULocationID, r.DOLocationID, r.total_amount⟩

/-- Column renaming/casting of the green `base` CTE. -/
def greenCast (r : GreenRaw) : Trip :=
  ⟨r.lpep_pickup_datetime, r.lpep_dropoff_datetime, r.passenger_count,
   r.trip_distance, r.VendorID, r.PULocationID, r.DOLocationID, r.total_amount⟩

/-- The yellow `base` CTE: select/cast plus the 2024 pickup-window WHERE
clause (clean.py lines 45-47). -/
def yellowBase (raws : List YellowRaw) : List Trip :=
  (raws.filter fun r =>
    decide (ts20240101 ≤ r.tpep_pickup_datetime) &&
    decide (r.tpep_pickup_datetime < ts20250101)).map yellowCast

/-- The green `base` CTE (clean.py lines 87-89). -/
def greenBase (raws : List GreenRaw) : List Trip :=
  (raws.filter fun r =>
    decide (ts20240101 ≤ r.lpep_pickup_datetime) &&
    decide (r.lpep_pickup_datetime < ts20250101)).map greenCast

/-- The `filtered` CTE predicate, one conjunct per SQL clause
(clean.py lines 52-57); `zones` is the optional positive-zone clause
inserted when ENFORCE_POSITIVE_ZONES is set. -/
def passesFilter (zones : Bool) (t : Trip) : Bool :=
  decide (t.pickup_datetime ≤ t.dropoff_datetime) &&
  decide (0 ≤ t.dropoff_datetime - t.pickup_datetime) &&
  decide (t.dropoff_datetime - t.pickup_datetime ≤ interval24h) &&
  decide (0 < t.trip_distance) && decide (t.trip_distance ≤ 100) &&
  decide (1 ≤ t.passenger_count) && decide (t.passenger_count ≤ 6) &&
  decide (0 ≤ t.total_amount) && decide (t.total_amount ≤ 1000) &&
  (if zones then decide (0 < t.pu_location_id) && decide (0 < t.do_location_id) else true)

/-- The yellow `filtered` CTE. -/
def yellowFiltered (zones : Bool) (raws : List YellowRaw) : List Trip :=
  (yellowBase raws).filter (passesFilter zones)

/-- The green `filtered` CTE. -/
def greenFiltered (zones : Bool) (raws : List GreenRaw) : List Trip :=
  (greenBase raws).filter (passesFilter zones)

/-- The eight columns of the PARTITION BY key of the QUALIFY clause
(clean.py lines 63-64), in the order they are listed there. -/
structure DKey where
  pickup_datetime : Int
  dropoff_datetime : Int
  trip_distance : ℚ
  pu_location_id : Int
  do_location_id : Int
  vendor_id : Int
  total_amount : ℚ
  passenger_count : Int
deriving DecidableEq, Repr

/-- The PARTITION BY key of a row: all eight selected columns. -/
def dedupKey (t : Trip) : DKey :=
  ⟨t.pickup_datetime, t.dropoff_datetime, t.trip_distance,
   t.pu_location_id, t.do_location_id, t.vendor_id, t.total_amount, t.passenger_count⟩

/-- Keep, in order, the first row of each key partition; rows whose key was
already seen are dropped.  This is the list semantics of
QUALIFY ROW_NUMBER() OVER (PARTITION BY key ORDER BY pickup_datetime) = 1:
pickup_datetime is itself part of the key, so every row of a partition is
tied and rank 1 goes to the first occurrence in stable order. -/
def distinctOn {α β : Type} [DecidableEq β] (key : α → β) (seen : List β) : List α → List α
  | [] => []
  | a :: as =>
    if key a ∈ seen then distinctOn key seen as
    else a :: distinctOn key (key a :: seen) as

/-- The table `yellow_trips_2024_clean` (clean.py `make_yellow_sql`). -/
def yellow_trips_2024_clean (zones : Bool) (raws : List YellowRaw) : List Trip :=
  distinctOn dedupKey [] (yellowFiltered zones raws)

/-- The table `green_trips_2024_clean` (clean.py `make_green_sql`). -/
def green_trips_2024_clean (zones : Bool) (raws : List GreenRaw) : List Trip :=
  distinctOn dedupKey [] (greenFiltered zones raws)

/-- The table `trips_2024_clean` built by COMBINE_SQL: yellow rows tagged
with color 'yellow' followed by green rows tagged 'green' (UNION ALL). -/
def trips_2024_clean (zones : Bool) (yraws : List YellowRaw) (graws : List GreenRaw) :
    List (String × Trip) :=
  (yellow_trips_2024_clean zones yraws).map (fun t => ("yellow", t)) ++
  (green_trips_2024_clean zones graws).map (fun t => ("green", t))

/-- The grouping key of the post-dedup duplicate self-check
(clean.py lines 171-177): color plus the eight dedup-key columns. -/
def cKey (p : String × Trip) : String × DKey :=
  (p.1, dedupKey p.2)

/-- COUNT(*) of the self-check group of key `k`: the number of combined
rows whose (color, dedup-key) equals `k`. -/
def keyCount (l : List (String × Trip)) (k : String × DKey) : Nat :=
  l.countP fun r => decide (cKey r = k)

/-- The self-check value SELECT COALESCE(SUM(c-1),0) FROM g WHERE c>1
(clean.py line 178): groups with c = 1 contribute 0, so summing c-1 over
all groups is the same number. -/
def dupCollisions (l : List (String × Trip)) : Nat :=
  ((distinctOn cKey [] l).map (fun r => keyCount l (cKey r) - 1)).sum

/-- A plain SELECT DISTINCT over a list of rows, keeping first occurrences.
This definition follows the words of the specification (a blind distinct
over the filtered rows) and is compared with the QUALIFY-based cleaner. -/
def selectDistinct (l : List Trip) : List Trip :=
  distinctOn id [] l

/-- Append the lists produced for each element, in order (UNION ALL of the
per-element result sets). -/
def concatMap {α β : Type} (f : α → List β) : List α → List β
  | [] => []
  | a :: as => f a ++ concatMap f as

/-- Insert a string into a sorted list, keeping it sorted (ascending). -/
def insertStr (s : String) : List String → List String
  | [] => [s]
  | a :: as => if s ≤ a then s :: a :: as else a :: insertStr s as

/-- Sort a list of strings ascending (the ORDER BY color of the analysis
queries and the sorted() call of report_bucket). -/
def sortStrs : List String → List String
  | [] => []
  | a :: as => insertStr a (sortStrs as)

/-- A row of the `trips_features` table consumed by analysis.py: a cleaned
trip enriched with the emissions value and the four calendar buckets. -/
structure FeatRow where
  color : String
  pickup_datetime : Int
  dropoff_datetime : Int
  trip_distance : ℚ
  trip_co2_kgs : ℚ
  hour_of_day : Int
  day_of_week : Int
  week_of_year : Int
  month_of_year : Int
deriving DecidableEq, Repr

/-- A row of the `agg` CTE of HEAVY_LIGHT_TEMPLATE: color, bucket and the
average emissions of the group. -/
structure AggRow where
  color : String
  bucket : Int
  avg_co2 : ℚ
deriving DecidableEq, Repr

/-- A row of the final HEAVY_LIGHT_TEMPLATE result set. -/
structure HLRow where
  kind : String
  color : String
  bucket : Int
  avg_co2 : ℚ
deriving DecidableEq, Repr

/-- A row of the MAX_TRIP_SQL result set (the five selected columns). -/
structure MaxTripRow where
  color : String
  pickup_datetime : Int
  dropoff_datetime : Int
  trip_distance : ℚ
  trip_co2_kgs : ℚ
deriving DecidableEq, Repr

/-- The row given rank 1 by ROW_NUMBER() ... ORDER BY score DESC over a
list: the greatest score wins and, on ties, the first occurrence in the
list (stable order) keeps the rank. -/
def firstMaxBy {α : Type} (f : α → ℚ) : List α → Option α
  | [] => none
  | a :: as =>
    match firstMaxBy f as with
    | none => some a
    | some r => if f a < f r then some r else some a

/-- The row given rank 1 by ROW_NUMBER() ... ORDER BY score ASC over a
list: the least score wins and, on ties, the first occurrence keeps it. -/
def firstMinBy {α : Type} (f : α → ℚ) : List α → Option α
  | [] => none
  | a :: as =>
    match firstMinBy f as with
    | none => some a
    | some r => if f r < f a then some r else some a

/-- The grouping keys of GROUP BY color, bucket, in first-occurrence
order. -/
def aggKeys (bucket : FeatRow → Int) (l : List FeatRow) : List (String × Int) :=
  distinctOn id [] (l.map fun r => (r.color, bucket r))

/-- The rows of one GROUP BY color, bucket group. -/
def groupRows (bucket : FeatRow → Int) (l : List FeatRow) (k : String × Int) : List FeatRow :=
  l.filter fun r => decide ((r.color, bucket r) = k)

/-- The `agg` CTE of HEAVY_LIGHT_TEMPLATE (analysis.py lines 54-58):
AVG(trip_co2_kgs) per (color, bucket). -/
def aggRows (bucket : FeatRow → Int) (l : List FeatRow) : List AggRow :=
  (aggKeys bucket l).map fun k =>
    ⟨k.1, k.2, ((groupRows bucket l k).map FeatRow.trip_co2_kgs).sum /
               ((groupRows bucket l k).length : ℚ)⟩

/-- The agg rows of one color partition, in agg order. -/
def aggFor (agg : List AggRow) (c : String) : List AggRow :=
  agg.filter fun a => decide (a.color = c)

/-- The rnk = 1 row of the `heavy` CTE for one color partition. -/
def heavyOpt (agg : List AggRow) (c : String) : Option AggRow :=
  firstMaxBy AggRow.avg_co2 (aggFor agg c)

/-- The rnk = 1 row of the `light` CTE for one color partition. -/
def lightOpt (agg : List AggRow) (c : String) : Option AggRow :=
  firstMinBy AggRow.avg_co2 (aggFor agg c)

/-- The two rows emitted for one color by the final UNION ALL of
HEAVY_LIGHT_TEMPLATE, in ORDER BY kind order (heavy before light). -/
def hlBlock (agg : List AggRow) (c : String) : List HLRow :=
  ((heavyOpt agg c).toList.map fun a => ⟨"heavy", c, a.bucket, a.avg_co2⟩) ++
  ((lightOpt agg c).toList.map fun a => ⟨"light", c, a.bucket, a.avg_co2⟩)

/-- The distinct colors of the agg rows, ascending (ORDER BY color). -/
def hlColors (agg : List AggRow) : List String :=
  sortStrs (distinctOn id [] (agg.map AggRow.color))

/-- The full HEAVY_LIGHT_TEMPLATE result set for one bucket column:
rows ordered by color then kind. -/
def heavyLight (bucket : FeatRow → Int) (l : List FeatRow) : List HLRow :=
  concatMap (hlBlock (aggRows bucket l)) (hlColors (aggRows bucket l))

/-- The distinct colors of the features table, ascending. -/
def tripColors (l : List FeatRow) : List String :=
  sortStrs (distinctOn id [] (l.map FeatRow.color))

/-- The rn = 1 row of the `ranked` CTE of MAX_TRIP_SQL for one color:
greatest trip_co2_kgs, ties kept by the first occurrence in the table. -/
def maxTripOpt (l : List FeatRow) (c : String) : Option FeatRow :=
  firstMaxBy FeatRow.trip_co2_kgs (l.filter fun r => decide (r.color = c))

/-- The MAX_TRIP_SQL result set (analysis.py lines 32-47): for each color
present, the rank-1 row projected to the five selected columns, ordered by
color. -/
def maxTrips (l : List FeatRow) : List MaxTripRow :=
  concatMap
    (fun c => (maxTripOpt l c).toList.map fun r =>
      ⟨c, r.pickup_datetime, r.dropoff_datetime, r.trip_distance, r.trip_co2_kgs⟩)
    (tripColors l)

/-- The grouping keys of MONTHLY_TOTALS_SQL, in first-occurrence order. -/
def monthKeys (l : List FeatRow) : List (String × Int) :=
  distinctOn id [] (l.map fun r => (r.color, r.month_of_year))

/-- The MONTHLY_TOTALS_SQL result set (analysis.py lines 76-81):
SUM(trip_co2_kgs) per (color, month).  The final ORDER BY only presents
rows; the chart consumer looks rows up by (color, month). -/
def monthly (l : List FeatRow) : List (String × Int × ℚ) :=
  (monthKeys l).map fun k =>
    (k.1, k.2, ((l.filter fun r => decide ((r.color, r.month_of_year) = k)).map
      FeatRow.trip_co2_kgs).sum)

/-- Total emissions of one (color, month) cell directly from the features
table; an empty cell sums to zero. -/
def sumCo2 (l : List FeatRow) (c : String) (m : Int) : ℚ :=
  ((l.filter fun r => decide (r.color = c ∧ r.month_of_year = m)).map
    FeatRow.trip_co2_kgs).sum

/-- The reshaped 12-entry monthly series of one color, as built by
make_monthly_plot: pivot on (month, color) then reindex months 1..12 with
fill_value 0.0 (analysis.py line 121).  The pivot index holds the months
that occur in the totals for any color; reindex adds only the months
missing from that index, and fill_value applies to those new rows alone.
A month already in the index whose (color, month) group does not exist
keeps its NaN cell, modelled as `none`; a month absent from the index
entirely becomes an explicit 0.0 for every column. -/
def monthlySeries (mt : List (String × Int × ℚ)) (c : String) : List (Option ℚ) :=
  (List.range 12).map fun (i : Nat) =>
    if ((i : Int) + 1) ∈ mt.map (fun x => x.2.1) then
      (mt.find? (fun x => decide (x.1 = c ∧ x.2.1 = (i : Int) + 1))).map (fun x => x.2.2)
    else some 0

/-- Run a fallible step for each element in order, collecting results; the
first failing step aborts the whole loop (the uncaught exception of an
.iloc[0] lookup on an empty frame). -/
def optionMapList {α β : Type} (F : α → Option β) : List α → Option (List β)
  | [] => some []
  | a :: as =>
    match F a, optionMapList F as with
    | some b, some bs => some (b :: bs)
    | _, _ => none

/-- The colors report_bucket iterates over: sorted(df["color"].unique())
(analysis.py line 100). -/
def reportColors (df : List HLRow) : List String :=
  sortStrs (distinctOn id [] (df.map HLRow.color))

/-- report_bucket (analysis.py lines 85-108) as a data transformation: for
each color present in the frame, look up its first heavy row and first
light row and emit (color, heavy bucket, light bucket); a missing row
makes the .iloc[0] lookup raise, modelled as `none`. -/
def reportBucket (df : List HLRow) : Option (List (String × Int × Int)) :=
  optionMapList
    (fun c =>
      match df.find? (fun r => decide (r.kind = "heavy" ∧ r.color = c)),
            df.find? (fun r => decide (r.kind = "light" ∧ r.color = c)) with
      | some h, some lt => some (c, h.bucket, lt.bucket)
      | _, _ => none)
    (reportColors df)

/-- The module-level flag of clean.py (line 19). -/
def ENFORCE_POSITIVE_ZONES : Bool := false

/-- The DuckDB file state seen by clean.py: the two raw tables (absent
when the load stage has not created them) and the three tables the
cleaner creates or replaces. -/
structure DBState where
  yellow_trips_2024 : Option (List YellowRaw)
  green_trips_2024 : Option (List GreenRaw)
  yellow_trips_2024_clean : Option (List Trip)
  green_trips_2024_clean : Option (List Trip)
  trips_2024_clean : Option (List (String × Trip))
deriving DecidableEq, Repr

/-- The body of clean.py main() inside the try block: create the yellow
clean table, then the green one, then the combined one.  A missing source
table makes the corresponding con.execute raise; every table created
before the failing statement stays replaced, the rest keeps its previous
contents.  The second component is the raised error, if any. -/
def cleanSteps (s : DBState) : DBState × Option String :=
  match s.yellow_trips_2024 with
  | none => (s, some "Catalog Error: Table yellow_trips_2024 does not exist")
  | some yraws =>
    let yc := yellow_trips_2024_clean ENFORCE_POSITIVE_ZONES yraws
    let s1 : DBState := { s with yellow_trips_2024_clean := some yc }
    match s1.green_trips_2024 with
    | none => (s1, some "Catalog Error: Table green_trips_2024 does not exist")
    | some graws =>
      let gc := green_trips_2024_clean ENFORCE_POSITIVE_ZONES graws
      let cc := trips_2024_clean ENFORCE_POSITIVE_ZONES yraws graws
      let s2 : DBState := { s1 with green_trips_2024_clean := some gc }
      let s3 : DBState := { s2 with trips_2024_clean := some cc }
      (s3, none)

/-- clean.py main(): the try body runs, any exception is caught and only
logged (clean.py lines 182-183), and the function returns normally with
whatever table state the run reached. -/
def mainClean (s : DBState) : DBState :=
  (cleanSteps s).1

/-- The creation invariants of a cleaned row as the cleaning SQL enforces
them: pickup inside 2024, pickup ≤ dropoff, duration between 0 and 24
hours inclusive, 0 < distance ≤ 100, 1 ≤ passenger_count ≤ 6 and
0 ≤ total_amount ≤ 1000. -/
def cleanedInvariants (t : Trip) : Prop :=
  ts20240101 ≤ t.pickup_datetime ∧ t.pickup_datetime < ts20250101 ∧
  t.pickup_datetime ≤ t.dropoff_datetime ∧
  0 ≤ t.dropoff_datetime - t.pickup_datetime ∧
  t.dropoff_datetime - t.pickup_datetime ≤ interval24h ∧
  0 < t.trip_distance ∧ t.trip_distance ≤ 100 ∧
  1 ≤ t.passenger_count ∧ t.passenger_count ≤ 6 ∧
  0 ≤ t.total_amount ∧ t.total_amount ≤ 1000

/- ### Generic lemmas about `distinctOn` -/

theorem distinctOn_subset {α β : Type} [DecidableEq β] (key : α → β) (seen : List β)
    (l : List α) : ∀ a ∈ distinctOn key seen l, a ∈ l := by
  induction l generalizing seen with
  | nil => intro a h; simp [distinctOn] at h
  | cons x xs ih =>
    intro a h
    by_cases hx : key x ∈ seen
    · simp [distinctOn, hx] at h
      exact List.mem_cons_of_mem _ (ih seen a h)
    · simp [distinctOn, hx] at h
      rcases h with h | h
      · simp [h]
      · exact List.mem_cons_of_mem _ (ih _ a h)

theorem distinctOn_key_spec {α β : Type} [DecidableEq β] (key : α → β) (seen : List β)
    (l : List α) :
    ((distinctOn key seen l).map key).Nodup ∧
      ∀ k ∈ (distinctOn key seen l).map key, k ∉ seen := by
  induction l generalizing seen with
  | nil => simp [distinctOn]
  | cons x xs ih =>
    by_cases hx : key x ∈ seen
    · simpa [distinctOn, hx] using ih seen
    · have h := ih (key x :: seen)
      refine ⟨?_, ?_⟩
      · simp only [distinctOn, hx, if_false, List.map_cons, List.nodup_cons]
        refine ⟨fun hk => ?_, h.1⟩
        have := h.2 _ hk
        simp at this
      · intro k hk
        simp only [distinctOn, hx, if_false, List.map_cons, List.mem_cons] at hk
        rcases hk with hk | hk
        · simpa [hk] using hx
        · have := h.2 _ hk
          intro hs
          exact this (List.mem_cons_of_mem _ hs)

theorem mem_distinctOn_id {α : Type} [DecidableEq α] (seen : List α) (l : List α) (a : α) :
    a ∈ distinctOn id seen l ↔ a ∈ l ∧ a ∉ seen := by
  induction l generalizing seen with
  | nil => simp [distinctOn]
  | cons x xs ih =>
    by_cases hx : x ∈ seen
    · simp only [distinctOn, id, hx, if_true, ih, List.mem_cons]
      constructor
      · rintro ⟨h1, h2⟩; exact ⟨Or.inr h1, h2⟩
      · rintro ⟨h1 | h1, h2⟩
        · subst h1; exact absurd hx h2
        · exact ⟨h1, h2⟩
    · simp only [distinctOn, id, hx, if_false, List.mem_cons, ih]
      constructor
      · rintro (h | ⟨h1, h2⟩)
        · subst h; exact ⟨Or.inl rfl, hx⟩
        · refine ⟨Or.inr h1, fun hs => h2 (Or.inr hs)⟩
      · rintro ⟨h1 | h1, h2⟩
        · exact Or.inl h1
        · by_cases hax : a = x
          · exact Or.inl hax
          · refine Or.inr ⟨h1, fun hmem => ?_⟩
            rcases hmem with h | h
            · exact hax h
            · exact h2 h

theorem distinctOn_inj_eq {α β : Type} [DecidableEq α] [DecidableEq β] (key : α → β)
    (hinj : ∀ a b, key a = key b → a = b) (l : List α) (seen : List α) :
    distinctOn key (seen.map key) l = distinctOn id seen l := by
  induction l generalizing seen with
  | nil => simp [distinctOn]
  | cons x xs ih =>
    have hmem : key x ∈ seen.map key ↔ x ∈ seen := by
      constructor
      · intro h
        rcases List.mem_map.mp h with ⟨b, hb, hkb⟩
        exact (hinj b x hkb) ▸ hb
      · intro h; exact List.mem_map_of_mem key h
    by_cases hx : x ∈ seen
    · simp [distinctOn, hmem.mpr hx, hx, ih]
    · have hkx : key x ∉ seen.map key := fun h => hx (hmem.mp h)
      simp only [distinctOn, hkx, if_false, id, hx]
      have : key x :: seen.map key = (x :: seen).map key := by simp
      rw [this, ih]

/- ### The dedup key determines the whole cleaned row -/

theorem dedupKey_injective : Function.Injective dedupKey := by
  intro a b h
  cases a; cases b
  simp only [dedupKey, DKey.mk.injEq] at h
  obtain ⟨h1, h2, h3, h4, h5, h6, h7, h8⟩ := h
  simp only [Trip.mk.injEq]
  exact ⟨h1, h2, h8, h3, h6, h4, h5, h7⟩

/- ### Cleaning-stage helper lemmas -/

theorem mem_yellow_clean {zones : Bool} {raws : List YellowRaw} {t : Trip}
    (h : t ∈ yellow_trips_2024_clean zones raws) :
    t ∈ yellowBase raws ∧ passesFilter zones t = true := by
  have h2 := distinctOn_subset dedupKey [] _ t h
  exact List.mem_filter.mp h2

theorem mem_green_clean {zones : Bool} {raws : List GreenRaw} {t : Trip}
    (h : t ∈ green_trips_2024_clean zones raws) :
    t ∈ greenBase raws ∧ passesFilter zones t = true := by
  have h2 := distinctOn_subset dedupKey [] _ t h
  exact List.mem_filter.mp h2

theorem mem_yellowBase_pickup {raws : List YellowRaw} {t : Trip}
    (h : t ∈ yellowBase raws) :
    ts20240101 ≤ t.pickup_datetime ∧ t.pickup_datetime < ts20250101 := by
  rcases List.mem_map.mp h with ⟨r, hr, rfl⟩
  have := (List.mem_filter.mp hr).2
  simp only [Bool.and_eq_true, decide_eq_true_eq] at this
  exact ⟨this.1, this.2⟩

theorem mem_greenBase_pickup {raws : List GreenRaw} {t : Trip}
    (h : t ∈ greenBase raws) :
    ts20240101 ≤ t.pickup_datetime ∧ t.pickup_datetime < ts20250101 := by
  rcases List.mem_map.mp h with ⟨r, hr, rfl⟩
  have := (List.mem_filter.mp hr).2
  simp only [Bool.and_eq_true, decide_eq_true_eq] at this
  exact ⟨this.1, this.2⟩

theorem passesFilter_spec {zones : Bool} {t : Trip} (h : passesFilter zones t = true) :
    t.pickup_datetime ≤ t.dropoff_datetime ∧
    0 ≤ t.dropoff_datetime - t.pickup_datetime ∧
    t.dropoff_datetime - t.pickup_datetime ≤ interval24h ∧
    0 < t.trip_distance ∧ t.trip_distance ≤ 100 ∧
    1 ≤ t.passenger_count ∧ t.passenger_count ≤ 6 ∧
    0 ≤ t.total_amount ∧ t.total_amount ≤ 1000 := by
  simp only [passesFilter, Bool.and_eq_true, decide_eq_true_eq] at h
  exact ⟨h.1.1.1.1.1.1.1.1.1, h.1.1.1.1.1.1.1.1.2, h.1.1.1.1.1.1.1.2,
         h.1.1.1.1.1.1.2, h.1.1.1.1.1.2, h.1.1.1.1.2, h.1.1.1.2, h.1.1.2, h.1.2⟩

theorem invariants_of_mem_yellow {zones : Bool} {raws : List YellowRaw} {t : Trip}
    (h : t ∈ yellow_trips_2024_clean zones raws) : cleanedInvariants t := by
  obtain ⟨hb, hf⟩ := mem_yellow_clean h
  obtain ⟨hy1, hy2⟩ := mem_yellowBase_pickup hb
  obtain ⟨p1, p2, p3, p4, p5, p6, p7, p8, p9⟩ := passesFilter_spec hf
  exact ⟨hy1, hy2, p1, p2, p3, p4, p5, p6, p7, p8, p9⟩

theorem invariants_of_mem_green {zones : Bool} {raws : List GreenRaw} {t : Trip}
    (h : t ∈ green_trips_2024_clean zones raws) : cleanedInvariants t := by
  obtain ⟨hb, hf⟩ := mem_green_clean h
  obtain ⟨hy1, hy2⟩ := mem_greenBase_pickup hb
  obtain ⟨p1, p2, p3, p4, p5, p6, p7, p8, p9⟩ := passesFilter_spec hf
  exact ⟨hy1, hy2, p1, p2, p3, p4, p5, p6, p7, p8, p9⟩

/-- C1, amended: every row of each per-category cleaned table and of the
combined cleaned table satisfies the creation invariants the cleaning SQL
enforces — pickup within 2024, pickup ≤ dropoff, duration at least 0 (not
strictly positive) and at most 24 hours, 0 < distance ≤ 100,
1 ≤ passenger_count ≤ 6 and 0 ≤ total_amount ≤ 1000 — so a raw row
violating any one of these clauses is excluded by the filter. -/
theorem claim_C1 (zones : Bool) (yraws : List YellowRaw) (graws : List GreenRaw) :
    (∀ t ∈ yellow_trips_2024_clean zones yraws, cleanedInvariants t) ∧
    (∀ t ∈ green_trips_2024_clean zones graws, cleanedInvariants t) ∧
    (∀ p ∈ trips_2024_clean zones yraws graws, cleanedInvariants p.2) := by
  refine ⟨fun t ht => invariants_of_mem_yellow ht,
          fun t ht => invariants_of_mem_green ht, fun p hp => ?_⟩
  rcases List.mem_append.mp hp with h | h
  · rcases List.mem_map.mp h with ⟨t, ht, rfl⟩
    exact invariants_of_mem_yellow ht
  · rcases List.mem_map.mp h with ⟨t, ht, rfl⟩
    exact invariants_of_mem_green ht

/-- C1 witness: the amended invariants evaluated on a concrete cleaned
row. -/
theorem claim_C1_witness :
    cleanedInvariants ⟨1704067200, 1704153600, 2, 5, 1, 1, 1, 20⟩ :=
  (claim_C1 false [⟨1704067200, 1704153600, 2, 5, 1, 1, 1, 20⟩] []).1
    ⟨1704067200, 1704153600, 2, 5, 1, 1, 1, 20⟩ (by decide)

/-- C1 counterexample: a raw row with pickup equal to dropoff passes the
filter (the SQL allows duration 0), so the cleaned table contains a row
whose trip duration is not strictly greater than 0, contradicting the
claimed strict-positivity invariant. -/
theorem claim_C1_counterexample :
    (⟨1704067200, 1704067200, 1, 1, 1, 1, 1, 10⟩ : Trip) ∈
      yellow_trips_2024_clean false [⟨1704067200, 1704067200, 1, 1, 1, 1, 1, 10⟩] ∧
    ¬(0 < (⟨1704067200, 1704067200, 1, 1, 1, 1, 1, 10⟩ : Trip).dropoff_datetime -
          (⟨1704067200, 1704067200, 1, 1, 1, 1, 1, 10⟩ : Trip).pickup_datetime) := by
  constructor
  · decide
  · decide

/- ### C10: the QUALIFY keep-rank-1 dedup is a plain DISTINCT -/

/-- C10: because every selected column is part of the dedup key, the
windowed keep-rank-1 deduplication of both per-category cleaning queries
is extensionally equal to a plain DISTINCT over the filtered rows, and the
result is a deterministic function of the input. -/
theorem claim_C10 :
    (∀ (zones : Bool) (raws : List YellowRaw),
      yellow_trips_2024_clean zones raws = selectDistinct (yellowFiltered zones raws)) ∧
    (∀ (zones : Bool) (raws : List GreenRaw),
      green_trips_2024_clean zones raws = selectDistinct (greenFiltered zones raws)) := by
  constructor
  · intro zones raws
    have h := distinctOn_inj_eq dedupKey (fun a b hab => dedupKey_injective hab)
      (yellowFiltered zones raws) []
    simpa [yellow_trips_2024_clean, selectDistinct] using h
  · intro zones raws
    have h := distinctOn_inj_eq dedupKey (fun a b hab => dedupKey_injective hab)
      (greenFiltered zones raws) []
    simpa [green_trips_2024_clean, selectDistinct] using h

/- ### C2: no dedup-key collisions survive in the combined table -/

theorem nodup_tagged (c : String) (l : List Trip) (h : (l.map dedupKey).Nodup) :
    (l.map (fun t => (c, dedupKey t))).Nodup := by
  have heq : l.map (fun t => (c, dedupKey t)) = (l.map dedupKey).map (fun k => (c, k)) := by
    rw [List.map_map]; rfl
  rw [heq]
  exact h.map (fun a b hab => congrArg Prod.snd hab)

theorem countP_key_eq_one {α β : Type} [DecidableEq β] (key : α → β) (l : List α)
    (h : (l.map key).Nodup) (r : α) (hr : r ∈ l) :
    l.countP (fun x => decide (key x = key r)) = 1 := by
  induction l with
  | nil => cases hr
  | cons a as ih =>
    simp only [List.map_cons, List.nodup_cons] at h
    rcases List.mem_cons.mp hr with heq | hr2
    · subst heq
      have h0 : as.countP (fun x => decide (key x = key r)) = 0 := by
        rw [List.countP_eq_zero]
        intro x hx
        simp only [decide_eq_true_eq]
        intro hxe
        exact h.1 (hxe ▸ List.mem_map_of_mem key hx)
      rw [List.countP_cons, h0]
      simp
    · have hne : ¬(key a = key r) := by
        intro he
        exact h.1 (he ▸ List.mem_map_of_mem key hr2)
      rw [List.countP_cons, ih h.2 hr2]
      simp [hne]

theorem cKeys_nodup (zones : Bool) (yraws : List YellowRaw) (graws : List GreenRaw) :
    ((trips_2024_clean zones yraws graws).map cKey).Nodup := by
  have hy : ((yellow_trips_2024_clean zones yraws).map dedupKey).Nodup :=
    (distinctOn_key_spec dedupKey [] (yellowFiltered zones yraws)).1
  have hg : ((green_trips_2024_clean zones graws).map dedupKey).Nodup :=
    (distinctOn_key_spec dedupKey [] (greenFiltered zones graws)).1
  have hyn := nodup_tagged "yellow" _ hy
  have hgn := nodup_tagged "green" _ hg
  have hdisj : List.Disjoint
      ((yellow_trips_2024_clean zones yraws).map (fun t => (("yellow" : String), dedupKey t)))
      ((green_trips_2024_clean zones graws).map (fun t => (("green" : String), dedupKey t))) := by
    intro x hx hx2
    rcases List.mem_map.mp hx with ⟨t, _, rfl⟩
    rcases List.mem_map.mp hx2 with ⟨u, _, he⟩
    have : ("green" : String) = "yellow" := congrArg Prod.fst he
    exact absurd this (by decide)
  have hsplit : (trips_2024_clean zones yraws graws).map cKey =
      (yellow_trips_2024_clean zones yraws).map (fun t => (("yellow" : String), dedupKey t)) ++
      (green_trips_2024_clean zones graws).map (fun t => (("green" : String), dedupKey t)) := by
    simp only [trips_2024_clean, List.map_append, List.map_map]
    rfl
  rw [hsplit, List.nodup_append]
  exact ⟨hyn, hgn, hdisj⟩

/-- C2: after deduplication and combination, no two rows of the combined
cleaned table share a dedup key within a category (the color-tagged keys
are pairwise distinct), and the post-dedup collision self-check of
clean.py main() evaluates to zero on every raw input. -/
theorem claim_C2 (zones : Bool) (yraws : List YellowRaw) (graws : List GreenRaw) :
    ((trips_2024_clean zones yraws graws).map cKey).Nodup ∧
    dupCollisions (trips_2024_clean zones yraws graws) = 0 := by
  refine ⟨cKeys_nodup zones yraws graws, ?_⟩
  apply List.sum_eq_zero
  intro x hx
  rcases List.mem_map.mp hx with ⟨r, hr, rfl⟩
  have hrl := distinctOn_subset cKey [] _ r hr
  have hone : keyCount (trips_2024_clean zones yraws graws) (cKey r) = 1 :=
    countP_key_eq_one cKey _ (cKeys_nodup zones yraws graws) r hrl
  exact Nat.sub_eq_zero_of_le (Nat.le_of_eq hone)

/- ### Generic lemmas about the rank-1 selectors -/

theorem firstMaxBy_none_iff {α : Type} (f : α → ℚ) (l : List α) :
    firstMaxBy f l = none ↔ l = [] := by
  cases l with
  | nil => simp [firstMaxBy]
  | cons a as =>
    simp only [firstMaxBy]
    cases firstMaxBy f as with
    | none => simp
    | some r =>
      by_cases hc : f a < f r <;> simp [hc]

theorem firstMaxBy_mem {α : Type} (f : α → ℚ) (l : List α) (r : α)
    (h : firstMaxBy f l = some r) : r ∈ l := by
  induction l generalizing r with
  | nil => simp [firstMaxBy] at h
  | cons a as ih =>
    simp only [firstMaxBy] at h
    cases hm : firstMaxBy f as with
    | none =>
      rw [hm] at h
      simp at h
      simp [h]
    | some m =>
      rw [hm] at h
      by_cases hc : f a < f m
      · simp [hc] at h
        subst h
        exact List.mem_cons_of_mem _ (ih m hm)
      · simp [hc] at h
        simp [h]

theorem firstMaxBy_le {α : Type} (f : α → ℚ) (l : List α) (r : α)
    (h : firstMaxBy f l = some r) : ∀ b ∈ l, f b ≤ f r := by
  induction l generalizing r with
  | nil => simp [firstMaxBy] at h
  | cons a as ih =>
    intro b hb
    simp only [firstMaxBy] at h
    cases hm : firstMaxBy f as with
    | none =>
      have hnil : as = [] := (firstMaxBy_none_iff f as).mp hm
      subst hnil
      rw [hm] at h
      simp at h
      subst h
      rcases List.mem_cons.mp hb with rfl | hb2
      · exact le_refl _
      · simp at hb2
    | some m =>
      rw [hm] at h
      by_cases hc : f a < f m
      · simp [hc] at h
        subst h
        rcases List.mem_cons.mp hb with rfl | hb2
        · exact le_of_lt hc
        · exact ih m hm b hb2
      · simp [hc] at h
        subst h
        rcases List.mem_cons.mp hb with rfl | hb2
        · exact le_refl _
        · exact le_trans (ih m hm b hb2) (not_lt.mp hc)

theorem firstMinBy_none_iff {α : Type} (f : α → ℚ) (l : List α) :
    firstMinBy f l = none ↔ l = [] := by
  cases l with
  | nil => simp [firstMinBy]
  | cons a as =>
    simp only [firstMinBy]
    cases firstMinBy f as with
    | none => simp
    | some r =>
      by_cases hc : f r < f a <;> simp [hc]

theorem firstMinBy_mem {α : Type} (f : α → ℚ) (l : List α) (r : α)
    (h : firstMinBy f l = some r) : r ∈ l := by
  induction l generalizing r with
  | nil => simp [firstMinBy] at h
  | cons a as ih =>
    simp only [firstMinBy] at h
    cases hm : firstMinBy f as with
    | none =>
      rw [hm] at h
      simp at h
      simp [h]
    | some m =>
      rw [hm] at h
      by_cases hc : f m < f a
      · simp [hc] at h
        subst h
        exact List.mem_cons_of_mem _ (ih m hm)
      · simp [hc] at h
        simp [h]

theorem firstMinBy_ge {α : Type} (f : α → ℚ) (l : List α) (r : α)
    (h : firstMinBy f l = some r) : ∀ b ∈ l, f r ≤ f b := by
  induction l generalizing r with
  | nil => simp [firstMinBy] at h
  | cons a as ih =>
    intro b hb
    simp only [firstMinBy] at h
    cases hm : firstMinBy f as with
    | none =>
      have hnil : as = [] := (firstMinBy_none_iff f as).mp hm
      subst hnil
      rw [hm] at h
      simp at h
      subst h
      rcases List.mem_cons.mp hb with rfl | hb2
      · exact le_refl _
      · simp at hb2
    | some m =>
      rw [hm] at h
      by_cases hc : f m < f a
      · simp [hc] at h
        subst h
        rcases List.mem_cons.mp hb with rfl | hb2
        · exact le_of_lt hc
        · exact ih m hm b hb2
      · simp [hc] at h
        subst h
        rcases List.mem_cons.mp hb with rfl | hb2
        · exact le_refl _
        · exact le_trans (not_lt.mp hc) (ih m hm b hb2)

theorem list_find?_congr {α : Type} (p q : α → Bool) (l : List α)
    (h : ∀ x ∈ l, p x = q x) : l.find? p = l.find? q := by
  induction l with
  | nil => rfl
  | cons a as ih =>
    have ha := h a (List.mem_cons_self a as)
    cases hpa : p a
    · rw [List.find?_cons_of_neg _ (by simp [hpa]),
          List.find?_cons_of_neg _ (by simp [← ha, hpa])]
      exact ih (fun x hx => h x (List.mem_cons_of_mem _ hx))
    · rw [List.find?_cons_of_pos _ hpa, List.find?_cons_of_pos _ (by rw [← ha]; exact hpa)]

theorem firstMaxBy_eq_find? {α : Type} (f : α → ℚ) (l : List α) :
    firstMaxBy f l = l.find? (fun a => decide (∀ b ∈ l, f b ≤ f a)) := by
  induction l with
  | nil => rfl
  | cons a as ih =>
    cases hm : firstMaxBy f as with
    | none =>
      have hnil : as = [] := (firstMaxBy_none_iff f as).mp hm
      subst hnil
      simp [firstMaxBy, List.find?]
    | some m =>
      have hmem := firstMaxBy_mem f as m hm
      have hle := firstMaxBy_le f as m hm
      by_cases hc : f a < f m
      · have hL : firstMaxBy f (a :: as) = some m := by
          simp [firstMaxBy, hm, hc]
        have hpa : ¬(∀ b ∈ a :: as, f b ≤ f a) := by
          intro hall
          exact absurd (hall m (List.mem_cons_of_mem _ hmem)) (not_le.mpr hc)
        rw [hL, List.find?_cons_of_neg _ (by simpa using hpa)]
        have hcong : ∀ x ∈ as,
            (fun x => decide (∀ b ∈ a :: as, f b ≤ f x)) x =
            (fun x => decide (∀ b ∈ as, f b ≤ f x)) x := by
          intro x hx
          simp only [decide_eq_decide]
          constructor
          · intro hall b hb
            exact hall b (List.mem_cons_of_mem _ hb)
          · intro hall b hb
            rcases List.mem_cons.mp hb with rfl | hb2
            · exact le_trans (le_of_lt hc) (hall m hmem)
            · exact hall b hb2
        rw [list_find?_congr _ _ _ hcong, ← ih, hm]
      · have hL : firstMaxBy f (a :: as) = some a := by
          simp [firstMaxBy, hm, hc]
        have hpa : ∀ b ∈ a :: as, f b ≤ f a := by
          intro b hb
          rcases List.mem_cons.mp hb with rfl | hb2
          · exact le_refl _
          · exact le_trans (hle b hb2) (not_lt.mp hc)
        rw [hL, List.find?_cons_of_pos _ (by simpa using hpa)]

theorem firstMinBy_eq_find? {α : Type} (f : α → ℚ) (l : List α) :
    firstMinBy f l = l.find? (fun a => decide (∀ b ∈ l, f a ≤ f b)) := by
  induction l with
  | nil => rfl
  | cons a as ih =>
    cases hm : firstMinBy f as with
    | none =>
      have hnil : as = [] := (firstMinBy_none_iff f as).mp hm
      subst hnil
      simp [firstMinBy, List.find?]
    | some m =>
      have hmem := firstMinBy_mem f as m hm
      have hge := firstMinBy_ge f as m hm
      by_cases hc : f m < f a
      · have hL : firstMinBy f (a :: as) = some m := by
          simp [firstMinBy, hm, hc]
        have hpa : ¬(∀ b ∈ a :: as, f a ≤ f b) := by
          intro hall
          exact absurd (hall m (List.mem_cons_of_mem _ hmem)) (not_le.mpr hc)
        rw [hL, List.find?_cons_of_neg _ (by simpa using hpa)]
        have hcong : ∀ x ∈ as,
            (fun x => decide (∀ b ∈ a :: as, f x ≤ f b)) x =
            (fun x => decide (∀ b ∈ as, f x ≤ f b)) x := by
          intro x hx
          simp only [decide_eq_decide]
          constructor
          · intro hall b hb
            exact hall b (List.mem_cons_of_mem _ hb)
          · intro hall b hb
            rcases List.mem_cons.mp hb with rfl | hb2
            · exact le_trans (hall m hmem) (le_of_lt hc)
            · exact hall b hb2
        rw [list_find?_congr _ _ _ hcong, ← ih, hm]
      · have hL : firstMinBy f (a :: as) = some a := by
          simp [firstMinBy, hm, hc]
        have hpa : ∀ b ∈ a :: as, f a ≤ f b := by
          intro b hb
          rcases List.mem_cons.mp hb with rfl | hb2
          · exact le_refl _
          · exact le_trans (not_lt.mp hc) (hge b hb2)
        rw [hL, List.find?_cons_of_pos _ (by simpa using hpa)]

/- ### Lemmas about concatMap and the string sort -/

theorem mem_concatMap {α β : Type} (f : α → List β) (cs : List α) (b : β) :
    b ∈ concatMap f cs ↔ ∃ c ∈ cs, b ∈ f c := by
  induction cs with
  | nil => simp [concatMap]
  | cons a as ih =>
    simp [concatMap, List.mem_append, ih]

theorem countP_concatMap_zero {α β : Type} (p : β → Bool) (f : α → List β) (cs : List α)
    (h : ∀ c ∈ cs, (f c).countP p = 0) : (concatMap f cs).countP p = 0 := by
  induction cs with
  | nil => simp [concatMap]
  | cons a as ih =>
    simp only [concatMap, List.countP_append]
    rw [h a (List.mem_cons_self a as), ih (fun c hc => h c (List.mem_cons_of_mem _ hc))]

theorem countP_concatMap_one {α β : Type} (p : β → Bool) (f : α → List β) (cs : List α)
    (hnd : cs.Nodup) (c : α) (hc : c ∈ cs) (h1 : (f c).countP p = 1)
    (h0 : ∀ x ∈ cs, x ≠ c → (f x).countP p = 0) : (concatMap f cs).countP p = 1 := by
  induction cs with
  | nil => cases hc
  | cons a as ih =>
    rw [List.nodup_cons] at hnd
    simp only [concatMap, List.countP_append]
    rcases List.mem_cons.mp hc with heq | hc2
    · subst heq
      have hz : (concatMap f as).countP p = 0 := by
        apply countP_concatMap_zero
        intro x hx
        exact h0 x (List.mem_cons_of_mem _ hx) (fun he => hnd.1 (he ▸ hx))
      rw [h1, hz]
    · have ha : (f a).countP p = 0 :=
        h0 a (List.mem_cons_self a as) (fun he => hnd.1 (he ▸ hc2))
      rw [ha, ih hnd.2 hc2 (fun x hx hne => h0 x (List.mem_cons_of_mem _ hx) hne)]

theorem mem_insertStr (s a : String) (l : List String) :
    a ∈ insertStr s l ↔ a = s ∨ a ∈ l := by
  induction l with
  | nil => simp [insertStr]
  | cons x xs ih =>
    by_cases hle : s ≤ x
    · simp [insertStr, hle]
    · simp [insertStr, hle, ih]
      tauto

theorem mem_sortStrs (a : String) (l : List String) : a ∈ sortStrs l ↔ a ∈ l := by
  induction l with
  | nil => simp [sortStrs]
  | cons x xs ih =>
    simp [sortStrs, mem_insertStr, ih]

theorem nodup_insertStr (s : String) (l : List String) (hs : s ∉ l) (h : l.Nodup) :
    (insertStr s l).Nodup := by
  induction l with
  | nil => simp [insertStr]
  | cons x xs ih =>
    rw [List.nodup_cons] at h
    by_cases hle : s ≤ x
    · rw [insertStr, if_pos hle, List.nodup_cons, List.nodup_cons]
      exact ⟨hs, h.1, h.2⟩
    · rw [insertStr, if_neg hle, List.nodup_cons]
      constructor
      · rw [mem_insertStr]
        rintro (rfl | hx)
        · exact hs (List.mem_cons_self x xs)
        · exact h.1 hx
      · exact ih (fun hmem => hs (List.mem_cons_of_mem _ hmem)) h.2

theorem nodup_sortStrs (l : List String) (h : l.Nodup) : (sortStrs l).Nodup := by
  induction l with
  | nil => simp [sortStrs]
  | cons x xs ih =>
    rw [List.nodup_cons] at h
    rw [sortStrs]
    exact nodup_insertStr x _ (fun hmem => h.1 ((mem_sortStrs x xs).mp hmem)) (ih h.2)

/- ### Aggregation lemmas for the heavy/light query -/

theorem exists_agg_of_color (bucket : FeatRow → Int) (l : List FeatRow) (c : String)
    (h : ∃ r ∈ l, r.color = c) : ∃ a ∈ aggRows bucket l, a.color = c := by
  obtain ⟨r, hr, hrc⟩ := h
  have hkey : (r.color, bucket r) ∈ l.map (fun r => (r.color, bucket r)) :=
    List.mem_map_of_mem _ hr
  have hks : (r.color, bucket r) ∈ aggKeys bucket l :=
    (mem_distinctOn_id [] _ _).mpr ⟨hkey, by simp⟩
  exact ⟨_, List.mem_map_of_mem _ hks, hrc⟩

theorem agg_color_mem (bucket : FeatRow → Int) (l : List FeatRow) (a : AggRow)
    (h : a ∈ aggRows bucket l) : ∃ r ∈ l, r.color = a.color := by
  rcases List.mem_map.mp h with ⟨k, hk, rfl⟩
  have hk2 := ((mem_distinctOn_id [] _ k).mp hk).1
  rcases List.mem_map.mp hk2 with ⟨r, hr, hkr⟩
  subst hkr
  exact ⟨r, hr, rfl⟩

theorem mem_hlColors (agg : List AggRow) (c : String) :
    c ∈ hlColors agg ↔ ∃ a ∈ agg, a.color = c := by
  rw [hlColors, mem_sortStrs, mem_distinctOn_id]
  simp

theorem hlColors_nodup (agg : List AggRow) : (hlColors agg).Nodup := by
  have h := (distinctOn_key_spec id [] (agg.map AggRow.color)).1
  rw [List.map_id] at h
  exact nodup_sortStrs _ h

theorem heavyOpt_some (agg : List AggRow) (c : String) (h : ∃ a ∈ agg, a.color = c) :
    ∃ a, heavyOpt agg c = some a := by
  obtain ⟨a, ha, hac⟩ := h
  have hm : a ∈ aggFor agg c := List.mem_filter.mpr ⟨ha, by simp [hac]⟩
  cases hh : heavyOpt agg c with
  | some r => exact ⟨r, rfl⟩
  | none =>
    rw [heavyOpt] at hh
    rw [(firstMaxBy_none_iff _ _).mp hh] at hm
    cases hm

theorem lightOpt_some (agg : List AggRow) (c : String) (h : ∃ a ∈ agg, a.color = c) :
    ∃ a, lightOpt agg c = some a := by
  obtain ⟨a, ha, hac⟩ := h
  have hm : a ∈ aggFor agg c := List.mem_filter.mpr ⟨ha, by simp [hac]⟩
  cases hh : lightOpt agg c with
  | some r => exact ⟨r, rfl⟩
  | none =>
    rw [lightOpt] at hh
    rw [(firstMinBy_none_iff _ _).mp hh] at hm
    cases hm

theorem mem_hlBlock {agg : List AggRow} {c : String} {h : HLRow} (hmem : h ∈ hlBlock agg c) :
    h.color = c ∧
    ((h.kind = "heavy" ∧ ∃ a, heavyOpt agg c = some a ∧
        h.bucket = a.bucket ∧ h.avg_co2 = a.avg_co2) ∨
     (h.kind = "light" ∧ ∃ a, lightOpt agg c = some a ∧
        h.bucket = a.bucket ∧ h.avg_co2 = a.avg_co2)) := by
  rw [hlBlock] at hmem
  rcases List.mem_append.mp hmem with hm | hm
  · rcases List.mem_map.mp hm with ⟨a, ha, rfl⟩
    have ha2 : heavyOpt agg c = some a := by
      cases hh : heavyOpt agg c <;> rw [hh] at ha <;> simp [Option.toList] at ha
      simp [ha]
    exact ⟨rfl, Or.inl ⟨rfl, a, ha2, rfl, rfl⟩⟩
  · rcases List.mem_map.mp hm with ⟨a, ha, rfl⟩
    have ha2 : lightOpt agg c = some a := by
      cases hh : lightOpt agg c <;> rw [hh] at ha <;> simp [Option.toList] at ha
      simp [ha]
    exact ⟨rfl, Or.inr ⟨rfl, a, ha2, rfl, rfl⟩⟩

theorem countP_hlBlock_heavy_self (agg : List AggRow) (c : String)
    (hs : ∃ a, heavyOpt agg c = some a) :
    (hlBlock agg c).countP (fun h => decide (h.kind = "heavy" ∧ h.color = c)) = 1 := by
  obtain ⟨a, ha⟩ := hs
  have hl : ∃ b, lightOpt agg c = some b := by
    cases hb : lightOpt agg c with
    | some b => exact ⟨b, rfl⟩
    | none =>
      rw [lightOpt] at hb
      rw [heavyOpt, (firstMinBy_none_iff _ _).mp hb] at ha
      simp [firstMaxBy] at ha
  obtain ⟨b, hb⟩ := hl
  rw [hlBlock, ha, hb]
  simp [List.countP_append, List.countP_cons]

theorem countP_hlBlock_light_self (agg : List AggRow) (c : String)
    (hs : ∃ a, lightOpt agg c = some a) :
    (hlBlock agg c).countP (fun h => decide (h.kind = "light" ∧ h.color = c)) = 1 := by
  obtain ⟨b, hb⟩ := hs
  have hh : ∃ a, heavyOpt agg c = some a := by
    cases ha : heavyOpt agg c with
    | some a => exact ⟨a, rfl⟩
    | none =>
      rw [heavyOpt] at ha
      rw [lightOpt, (firstMaxBy_none_iff _ _).mp ha] at hb
      simp [firstMinBy] at hb
  obtain ⟨a, ha⟩ := hh
  rw [hlBlock, ha, hb]
  simp [List.countP_append, List.countP_cons]

theorem countP_hlBlock_other (agg : List AggRow) (cx c : String) (k : String)
    (hne : cx ≠ c) :
    (hlBlock agg cx).countP (fun h => decide (h.kind = k ∧ h.color = c)) = 0 := by
  rw [List.countP_eq_zero]
  intro h hm
  have hcol := (mem_hlBlock hm).1
  simp only [decide_eq_true_eq]
  rintro ⟨-, hc⟩
  exact hne (hcol ▸ hc)

/-- C3: for every category with at least one populated bucket, the
heavy/light query returns exactly one heavy row and one light row for that
category; the heavy bucket average is at least every populated bucket
average of the category, the light bucket average is at most every such
average, and when exactly one bucket is populated the heavy and light rows
carry the same bucket and average (the query is total, so no error is
possible). -/
theorem claim_C3 (bucket : FeatRow → Int) (l : List FeatRow) (c : String)
    (hpop : ∃ r ∈ l, r.color = c) :
    ((heavyLight bucket l).countP (fun h => decide (h.kind = "heavy" ∧ h.color = c)) = 1) ∧
    ((heavyLight bucket l).countP (fun h => decide (h.kind = "light" ∧ h.color = c)) = 1) ∧
    (∀ h ∈ heavyLight bucket l, h.kind = "heavy" → h.color = c →
       ∀ a ∈ aggRows bucket l, a.color = c → a.avg_co2 ≤ h.avg_co2) ∧
    (∀ h ∈ heavyLight bucket l, h.kind = "light" → h.color = c →
       ∀ a ∈ aggRows bucket l, a.color = c → h.avg_co2 ≤ a.avg_co2) ∧
    (∀ hh hl2, hh ∈ heavyLight bucket l → hl2 ∈ heavyLight bucket l →
       (aggFor (aggRows bucket l) c).length = 1 →
       hh.kind = "heavy" → hh.color = c → hl2.kind = "light" → hl2.color = c →
       hh.bucket = hl2.bucket ∧ hh.avg_co2 = hl2.avg_co2) := by
  have hagg : ∃ a ∈ aggRows bucket l, a.color = c := exists_agg_of_color bucket l c hpop
  have hcin : c ∈ hlColors (aggRows bucket l) := (mem_hlColors _ _).mpr hagg
  have hhs := heavyOpt_some (aggRows bucket l) c hagg
  have hls := lightOpt_some (aggRows bucket l) c hagg
  refine ⟨?_, ?_, ?_, ?_, ?_⟩
  · exact countP_concatMap_one _ _ _ (hlColors_nodup _) c hcin
      (countP_hlBlock_heavy_self _ c hhs)
      (fun x hx hne => countP_hlBlock_other _ x c "heavy" hne)
  · exact countP_concatMap_one _ _ _ (hlColors_nodup _) c hcin
      (countP_hlBlock_light_self _ c hls)
      (fun x hx hne => countP_hlBlock_other _ x c "light" hne)
  · intro h hm hk hcol a ha hac
    rcases (mem_concatMap _ _ _).mp hm with ⟨cx, hcx, hblk⟩
    have hspec := mem_hlBlock hblk
    have hcc : cx = c := by rw [← hspec.1, hcol]
    subst hcc
    rcases hspec.2 with ⟨-, a0, ha0, hb, hav⟩ | ⟨hkind, -⟩
    · have hmem : a ∈ aggFor (aggRows bucket l) cx :=
        List.mem_filter.mpr ⟨ha, by simp [hac]⟩
      have := firstMaxBy_le AggRow.avg_co2 (aggFor (aggRows bucket l) cx) a0 ha0 a hmem
      rw [hav]
      exact this
    · have : ("heavy" : String) = "light" := by rw [← hk, hkind]
      exact absurd this (by decide)
  · intro h hm hk hcol a ha hac
    rcases (mem_concatMap _ _ _).mp hm with ⟨cx, hcx, hblk⟩
    have hspec := mem_hlBlock hblk
    have hcc : cx = c := by rw [← hspec.1, hcol]
    subst hcc
    rcases hspec.2 with ⟨hkind, -⟩ | ⟨-, a0, ha0, hb, hav⟩
    · have : ("light" : String) = "heavy" := by rw [← hk, hkind]
      exact absurd this (by decide)
    · have hmem : a ∈ aggFor (aggRows bucket l) cx :=
        List.mem_filter.mpr ⟨ha, by simp [hac]⟩
      have := firstMinBy_ge AggRow.avg_co2 (aggFor (aggRows bucket l) cx) a0 ha0 a hmem
      rw [hav]
      exact this
  · intro hh hl2 hmh hml hlen hkh hch hkl hcl
    rcases List.length_eq_one.mp hlen with ⟨a1, ha1⟩
    have hH : heavyOpt (aggRows bucket l) c = some a1 := by
      rw [heavyOpt, ha1]
      simp [firstMaxBy]
    have hL : lightOpt (aggRows bucket l) c = some a1 := by
      rw [lightOpt, ha1]
      simp [firstMinBy]
    rcases (mem_concatMap _ _ _).mp hmh with ⟨cx, hcx, hblkh⟩
    have hspech := mem_hlBlock hblkh
    have hcc : cx = c := by rw [← hspech.1, hch]
    subst hcc
    rcases (mem_concatMap _ _ _).mp hml with ⟨cy, hcy, hblkl⟩
    have hspecl := mem_hlBlock hblkl
    have hcc2 : cy = cx := by rw [← hspecl.1, hcl]
    subst hcc2
    rcases hspech.2 with ⟨-, a0, ha0, hbh, havh⟩ | ⟨hkind, -⟩
    · rcases hspecl.2 with ⟨hkind, -⟩ | ⟨-, b0, hb0, hbl, havl⟩
      · have : ("light" : String) = "heavy" := by rw [← hkl, hkind]
        exact absurd this (by decide)
      · rw [hH] at ha0
        rw [hL] at hb0
        obtain rfl : a1 = a0 := by injection ha0
        obtain rfl : a1 = b0 := by injection hb0
        rw [hbh, hbl, havh, havl]
        exact ⟨rfl, rfl⟩
    · have : ("heavy" : String) = "light" := by rw [← hkh, hkind]
      exact absurd this (by decide)

/-- C3 witness: the binder-free conjuncts of the theorem evaluated on a
concrete features table with two populated buckets. -/
theorem claim_C3_witness :
    ((heavyLight FeatRow.hour_of_day
        [⟨"yellow", 0, 0, 1, 2, 0, 0, 1, 1⟩, ⟨"yellow", 0, 0, 1, 6, 1, 0, 1, 1⟩]).countP
      (fun h => decide (h.kind = "heavy" ∧ h.color = "yellow")) = 1) ∧
    ((heavyLight FeatRow.hour_of_day
        [⟨"yellow", 0, 0, 1, 2, 0, 0, 1, 1⟩, ⟨"yellow", 0, 0, 1, 6, 1, 0, 1, 1⟩]).countP
      (fun h => decide (h.kind = "light" ∧ h.color = "yellow")) = 1) := by
  have h := claim_C3 FeatRow.hour_of_day
    [⟨"yellow", 0, 0, 1, 2, 0, 0, 1, 1⟩, ⟨"yellow", 0, 0, 1, 6, 1, 0, 1, 1⟩] "yellow"
    ⟨⟨"yellow", 0, 0, 1, 2, 0, 0, 1, 1⟩, by simp, rfl⟩
  exact ⟨h.1, h.2.1⟩

/-- C5, amended: the heavy/light rankings order only by the average, so a
tie between buckets is broken by position in the aggregation list (the
first-encountered (color, bucket) group in table order), not by lowest
bucket id; both rankings read the same aggregation list, so heavy and
light stay consistent.  The rank-1 selections equal the first aggregation
row attaining the extremal average; with the tied rows grouped in
bucket-id order (averages {0: 2, 1: 5, 2: 5}) heavy is hour 1 and light is
hour 0 on every run. -/
theorem claim_C5 :
    (∀ (bucket : FeatRow → Int) (l : List FeatRow) (c : String),
      heavyOpt (aggRows bucket l) c =
        (aggFor (aggRows bucket l) c).find?
          (fun a => decide (∀ b ∈ aggFor (aggRows bucket l) c, b.avg_co2 ≤ a.avg_co2)) ∧
      lightOpt (aggRows bucket l) c =
        (aggFor (aggRows bucket l) c).find?
          (fun a => decide (∀ b ∈ aggFor (aggRows bucket l) c, a.avg_co2 ≤ b.avg_co2))) ∧
    heavyLight FeatRow.hour_of_day
      [⟨"yellow", 0, 0, 1, 2, 0, 0, 1, 1⟩, ⟨"yellow", 0, 0, 1, 5, 1, 0, 1, 1⟩,
       ⟨"yellow", 0, 0, 1, 5, 2, 0, 1, 1⟩] =
      [⟨"heavy", "yellow", 1, 5⟩, ⟨"light", "yellow", 0, 2⟩] := by
  constructor
  · intro bucket l c
    exact ⟨firstMaxBy_eq_find? _ _, firstMinBy_eq_find? _ _⟩
  · with_unfolding_all rfl

/-- C5 counterexample: a features table whose per-hour averages are
{0: 2, 1: 5, 2: 5} — hours 1 and 2 tie for the maximum — but whose rows
arrive with hour 2 first.  The heavy bucket is hour 2, not the lowest tied
bucket id 1, because the ranking has no tie-break key and follows table
order. -/
theorem claim_C5_counterexample :
    aggRows FeatRow.hour_of_day
      [⟨"yellow", 0, 0, 1, 5, 2, 0, 1, 1⟩, ⟨"yellow", 0, 0, 1, 5, 1, 0, 1, 1⟩,
       ⟨"yellow", 0, 0, 1, 2, 0, 0, 1, 1⟩] =
      [⟨"yellow", 2, 5⟩, ⟨"yellow", 1, 5⟩, ⟨"yellow", 0, 2⟩] ∧
    heavyLight FeatRow.hour_of_day
      [⟨"yellow", 0, 0, 1, 5, 2, 0, 1, 1⟩, ⟨"yellow", 0, 0, 1, 5, 1, 0, 1, 1⟩,
       ⟨"yellow", 0, 0, 1, 2, 0, 0, 1, 1⟩] =
      [⟨"heavy", "yellow", 2, 5⟩, ⟨"light", "yellow", 0, 2⟩] := by
  constructor
  · with_unfolding_all rfl
  · with_unfolding_all rfl

/- ### The max-trip query -/

theorem mem_tripColors (l : List FeatRow) (c : String) :
    c ∈ tripColors l ↔ ∃ r ∈ l, r.color = c := by
  rw [tripColors, mem_sortStrs, mem_distinctOn_id]
  simp

theorem tripColors_nodup (l : List FeatRow) : (tripColors l).Nodup := by
  have h := (distinctOn_key_spec id [] (l.map FeatRow.color)).1
  rw [List.map_id] at h
  exact nodup_sortStrs _ h

theorem maxTripOpt_some (l : List FeatRow) (c : String) (h : ∃ r ∈ l, r.color = c) :
    ∃ r, maxTripOpt l c = some r := by
  obtain ⟨r, hr, hrc⟩ := h
  have hm : r ∈ l.filter (fun r => decide (r.color = c)) :=
    List.mem_filter.mpr ⟨hr, by simp [hrc]⟩
  cases hh : maxTripOpt l c with
  | some x => exact ⟨x, rfl⟩
  | none =>
    rw [maxTripOpt] at hh
    rw [(firstMaxBy_none_iff _ _).mp hh] at hm
    cases hm

theorem mem_maxTrips {l : List FeatRow} {m : MaxTripRow} (h : m ∈ maxTrips l) :
    m.color ∈ tripColors l ∧ ∃ r, maxTripOpt l m.color = some r ∧
      m = ⟨m.color, r.pickup_datetime, r.dropoff_datetime, r.trip_distance,
           r.trip_co2_kgs⟩ := by
  rcases (mem_concatMap _ _ _).mp h with ⟨cx, hcx, hm⟩
  rcases List.mem_map.mp hm with ⟨r, hr, rfl⟩
  have hopt : maxTripOpt l cx = some r := by
    cases hh : maxTripOpt l cx <;> rw [hh] at hr <;> simp [Option.toList] at hr
    simp [hr]
  exact ⟨hcx, r, hopt, rfl⟩

/-- C4, amended: for every category present, the max-trip query returns
exactly one row, that row is (the projection of) a features row of the
category, its emissions value is at least that of every row of the
category, and a tie on the maximal emissions value is broken by the first
occurrence in table order — the rank-1 row is the earliest row of the
category partition attaining the maximum, not necessarily the one with
earliest pickup. -/
theorem claim_C4 (l : List FeatRow) (c : String) (hpop : ∃ r ∈ l, r.color = c) :
    ((maxTrips l).countP (fun m => decide (m.color = c)) = 1) ∧
    (∀ m ∈ maxTrips l, m.color = c →
      (∃ r ∈ l, r.color = c ∧
        m = ⟨c, r.pickup_datetime, r.dropoff_datetime, r.trip_distance,
             r.trip_co2_kgs⟩) ∧
      (∀ r ∈ l, r.color = c → r.trip_co2_kgs ≤ m.trip_co2_kgs)) ∧
    (maxTripOpt l c = (l.filter fun r => decide (r.color = c)).find?
      (fun r => decide (∀ b ∈ l.filter (fun r => decide (r.color = c)),
        b.trip_co2_kgs ≤ r.trip_co2_kgs))) := by
  have hcin : c ∈ tripColors l := (mem_tripColors l c).mpr hpop
  obtain ⟨r0, hr0⟩ := maxTripOpt_some l c hpop
  refine ⟨?_, ?_, firstMaxBy_eq_find? _ _⟩
  · refine countP_concatMap_one _ _ _ (tripColors_nodup l) c hcin ?_ ?_
    · rw [hr0]
      simp
    · intro x hx hne
      rw [List.countP_eq_zero]
      intro m hm
      rcases List.mem_map.mp hm with ⟨r, hr, rfl⟩
      simp only [decide_eq_true_eq]
      exact hne
  · intro m hm hmc
    obtain ⟨hcol, r, hopt, hform⟩ := mem_maxTrips hm
    rw [hmc] at hopt hform
    have hrl : r ∈ l.filter (fun r => decide (r.color = c)) :=
      firstMaxBy_mem _ _ _ hopt
    have hrl2 := List.mem_filter.mp hrl
    have hrc : r.color = c := by simpa using hrl2.2
    constructor
    · exact ⟨r, hrl2.1, hrc, hform⟩
    · intro x hx hxc
      have hxf : x ∈ l.filter (fun r => decide (r.color = c)) :=
        List.mem_filter.mpr ⟨hx, by simp [hxc]⟩
      have := firstMaxBy_le _ _ _ hopt x hxf
      rw [hform]
      exact this

/-- C4 witness: the count conjunct evaluated on the two-category scenario
with emissions {5, 10, 3} and {8}. -/
theorem claim_C4_witness :
    (maxTrips
      [⟨"yellow", 0, 0, 1, 5, 0, 0, 1, 1⟩, ⟨"yellow", 0, 0, 1, 10, 1, 0, 1, 1⟩,
       ⟨"yellow", 0, 0, 1, 3, 2, 0, 1, 1⟩, ⟨"green", 0, 0, 1, 8, 3, 0, 1, 1⟩]).countP
      (fun m => decide (m.color = "yellow")) = 1 :=
  (claim_C4
    [⟨"yellow", 0, 0, 1, 5, 0, 0, 1, 1⟩, ⟨"yellow", 0, 0, 1, 10, 1, 0, 1, 1⟩,
     ⟨"yellow", 0, 0, 1, 3, 2, 0, 1, 1⟩, ⟨"green", 0, 0, 1, 8, 3, 0, 1, 1⟩] "yellow"
    ⟨⟨"yellow", 0, 0, 1, 5, 0, 0, 1, 1⟩, by simp, rfl⟩).1

/-- C4 counterexample: two rows of the same category tie at the maximal
emissions value 10; the row listed first has pickup 200, the other pickup
100.  The query returns the pickup-200 row, not the earliest pickup among
the tied maxima, refuting the claimed tie-break. -/
theorem claim_C4_counterexample :
    maxTrips [⟨"yellow", 200, 0, 1, 10, 0, 0, 1, 1⟩,
              ⟨"yellow", 100, 0, 1, 10, 0, 0, 1, 1⟩] =
      [⟨"yellow", 200, 0, 1, 10⟩] := by
  with_unfolding_all rfl

/- ### Zero-row semantics and the reporting loop -/

theorem optionMapList_spec {α β : Type} (F : α → Option β) (proj : β → α) (cs : List α)
    (h : ∀ c ∈ cs, ∃ y, F c = some y ∧ proj y = c) :
    ∃ out, optionMapList F cs = some out ∧ out.map proj = cs := by
  induction cs with
  | nil => exact ⟨[], rfl, rfl⟩
  | cons a as ih =>
    obtain ⟨y, hy, hpy⟩ := h a (List.mem_cons_self a as)
    obtain ⟨out, hout, hmap⟩ := ih (fun c hc => h c (List.mem_cons_of_mem _ hc))
    refine ⟨y :: out, ?_, ?_⟩
    · rw [optionMapList, hy, hout]
    · simp [hpy, hmap]

theorem mem_reportColors (df : List HLRow) (c : String) :
    c ∈ reportColors df ↔ ∃ h ∈ df, h.color = c := by
  rw [reportColors, mem_sortStrs, mem_distinctOn_id]
  simp

theorem hl_row_color_from_table (bucket : FeatRow → Int) (l : List FeatRow) (h : HLRow)
    (hm : h ∈ heavyLight bucket l) : ∃ r ∈ l, r.color = h.color := by
  rcases (mem_concatMap _ _ _).mp hm with ⟨cx, hcx, hblk⟩
  have hcol := (mem_hlBlock hblk).1
  rcases (mem_hlColors _ _).mp hcx with ⟨a, ha, hac⟩
  rcases agg_color_mem bucket l a ha with ⟨r, hr, hrc⟩
  exact ⟨r, hr, by rw [hrc, hac, hcol]⟩

theorem hlBlock_subset_heavyLight (bucket : FeatRow → Int) (l : List FeatRow) (c : String)
    (hc : c ∈ hlColors (aggRows bucket l)) :
    ∀ h ∈ hlBlock (aggRows bucket l) c, h ∈ heavyLight bucket l := by
  intro h hm
  exact (mem_concatMap _ _ _).mpr ⟨c, hc, hm⟩

/-- C8: on an empty features table both queries return no rows; for a
category absent from the table both queries return no rows of that
category (no placeholder); and on the heavy/light result the reporting
loop never fails and iterates exactly over the categories present in the
query result. -/
theorem claim_C8 (bucket : FeatRow → Int) (l : List FeatRow) (c : String)
    (habs : ∀ r ∈ l, r.color ≠ c) :
    heavyLight bucket ([] : List FeatRow) = [] ∧
    maxTrips ([] : List FeatRow) = [] ∧
    (heavyLight bucket l).filter (fun h => decide (h.color = c)) = [] ∧
    (maxTrips l).filter (fun m => decide (m.color = c)) = [] ∧
    (∃ out, reportBucket (heavyLight bucket l) = some out ∧
      out.map (fun x => x.1) = reportColors (heavyLight bucket l)) := by
  refine ⟨rfl, rfl, ?_, ?_, ?_⟩
  · rw [List.filter_eq_nil_iff]
    intro h hm
    rcases hl_row_color_from_table bucket l h hm with ⟨r, hr, hrc⟩
    simp only [decide_eq_true_eq]
    intro hc
    exact habs r hr (hrc.symm ▸ hc)
  · rw [List.filter_eq_nil_iff]
    intro m hm
    have hcol := (mem_maxTrips hm).1
    rcases (mem_tripColors _ _).mp hcol with ⟨r, hr, hrc⟩
    simp only [decide_eq_true_eq]
    intro hc
    exact habs r hr (by rw [hrc, hc])
  · apply optionMapList_spec
    intro cx hcx
    rcases (mem_reportColors _ _).mp hcx with ⟨h0, hm0, hc0⟩
    rcases (mem_concatMap _ _ _).mp hm0 with ⟨cy, hcy, hblk⟩
    have hcc : cy = cx := by rw [← (mem_hlBlock hblk).1, hc0]
    subst hcc
    rcases (mem_hlColors _ _).mp hcy with ⟨a, ha, hac⟩
    obtain ⟨ah, hah⟩ := heavyOpt_some (aggRows bucket l) cy ⟨a, ha, hac⟩
    obtain ⟨al, hal⟩ := lightOpt_some (aggRows bucket l) cy ⟨a, ha, hac⟩
    have hheavy : (⟨"heavy", cy, ah.bucket, ah.avg_co2⟩ : HLRow) ∈ heavyLight bucket l := by
      apply hlBlock_subset_heavyLight bucket l cy hcy
      rw [hlBlock, hah, hal]
      simp
    have hlight : (⟨"light", cy, al.bucket, al.avg_co2⟩ : HLRow) ∈ heavyLight bucket l := by
      apply hlBlock_subset_heavyLight bucket l cy hcy
      rw [hlBlock, hah, hal]
      simp
    have hfh : ((heavyLight bucket l).find?
        (fun r => decide (r.kind = "heavy" ∧ r.color = cy))).isSome := by
      rw [List.find?_isSome]
      exact ⟨_, hheavy, by simp⟩
    have hfl : ((heavyLight bucket l).find?
        (fun r => decide (r.kind = "light" ∧ r.color = cy))).isSome := by
      rw [List.find?_isSome]
      exact ⟨_, hlight, by simp⟩
    obtain ⟨h1, hh1⟩ := Option.isSome_iff_exists.mp hfh
    obtain ⟨l1, hl1⟩ := Option.isSome_iff_exists.mp hfl
    refine ⟨(cy, h1.bucket, l1.bucket), ?_, rfl⟩
    rw [hh1, hl1]

/-- C8 witness: the zero-row conjuncts evaluated for a category absent
from a concrete features table. -/
theorem claim_C8_witness :
    (heavyLight FeatRow.hour_of_day
        [⟨"yellow", 0, 0, 1, 5, 0, 0, 1, 1⟩]).filter
      (fun h => decide (h.color = "green")) = [] ∧
    (maxTrips [⟨"yellow", 0, 0, 1, 5, 0, 0, 1, 1⟩]).filter
      (fun m => decide (m.color = "green")) = [] :=
  ⟨(claim_C8 FeatRow.hour_of_day [⟨"yellow", 0, 0, 1, 5, 0, 0, 1, 1⟩] "green"
      (by decide)).2.2.1,
   (claim_C8 FeatRow.hour_of_day [⟨"yellow", 0, 0, 1, 5, 0, 0, 1, 1⟩] "green"
      (by decide)).2.2.2.1⟩

/- ### Monthly totals and the zero-filled 12-month series -/

theorem find?_map_keys {γ : Type} (keys : List (String × Int)) (h : (String × Int) → γ)
    (c : String) (m : Int) :
    (keys.map (fun k => (k.1, k.2, h k))).find? (fun x => decide (x.1 = c ∧ x.2.1 = m)) =
    (keys.find? (fun k => decide (k = (c, m)))).map (fun k => (k.1, k.2, h k)) := by
  induction keys with
  | nil => rfl
  | cons k ks ih =>
    by_cases hk : k.1 = c ∧ k.2 = m
    · have hk2 : k = (c, m) := Prod.ext hk.1 hk.2
      rw [List.map_cons, List.find?_cons_of_pos _ (by simpa using hk),
          List.find?_cons_of_pos _ (by simp [hk2])]
      simp
    · have hk2 : ¬(k = (c, m)) := by
        intro he
        exact hk ⟨by rw [he], by rw [he]⟩
      rw [List.map_cons, List.find?_cons_of_neg _ (by simpa using hk),
          List.find?_cons_of_neg _ (by simp [hk2])]
      exact ih

theorem find?_eq_self_key (keys : List (String × Int)) (x : String × Int) :
    keys.find? (fun k => decide (k = x)) = if x ∈ keys then some x else none := by
  induction keys with
  | nil => simp
  | cons k ks ih =>
    by_cases hk : k = x
    · subst hk
      rw [List.find?_cons_of_pos _ (by simp)]
      simp
    · rw [List.find?_cons_of_neg _ (by simp [hk]), ih]
      by_cases hx : x ∈ ks
      · simp [hx, List.mem_cons]
      · have : x ∉ k :: ks := by
          rw [List.mem_cons]
          rintro (he | he)
          · exact hk he.symm
          · exact hx he
        simp [hx, this]

theorem monthKeys_mem (l : List FeatRow) (c : String) (m : Int) :
    (c, m) ∈ monthKeys l ↔ ∃ r ∈ l, r.color = c ∧ r.month_of_year = m := by
  rw [monthKeys, mem_distinctOn_id]
  constructor
  · rintro ⟨hmem, -⟩
    rcases List.mem_map.mp hmem with ⟨r, hr, hre⟩
    exact ⟨r, hr, congrArg Prod.fst hre, congrArg Prod.snd hre⟩
  · rintro ⟨r, hr, h1, h2⟩
    refine ⟨?_, by simp⟩
    have he : (r.color, r.month_of_year) = (c, m) := by rw [h1, h2]
    exact he ▸ List.mem_map_of_mem _ hr

theorem monthly_months_mem (l : List FeatRow) (m : Int) :
    m ∈ (monthly l).map (fun x => x.2.1) ↔ ∃ r ∈ l, r.month_of_year = m := by
  constructor
  · intro h
    rcases List.mem_map.mp h with ⟨x, hx, hxm⟩
    rw [monthly] at hx
    rcases List.mem_map.mp hx with ⟨k, hk, hkx⟩
    have hk2 := ((mem_distinctOn_id [] _ k).mp hk).1
    rcases List.mem_map.mp hk2 with ⟨r, hr, hkr⟩
    subst hkx
    subst hkr
    exact ⟨r, hr, hxm⟩
  · rintro ⟨r, hr, hrm⟩
    have hk : (r.color, m) ∈ monthKeys l := (monthKeys_mem l r.color m).mpr ⟨r, hr, rfl, hrm⟩
    rw [monthly]
    exact List.mem_map.mpr ⟨_, List.mem_map_of_mem _ hk, rfl⟩

theorem monthly_find?_eq (l : List FeatRow) (c : String) (m : Int) :
    (monthly l).find? (fun x => decide (x.1 = c ∧ x.2.1 = m)) =
    if (c, m) ∈ monthKeys l then some (c, m, sumCo2 l c m) else none := by
  rw [monthly, find?_map_keys, find?_eq_self_key]
  by_cases hk : (c, m) ∈ monthKeys l
  · rw [if_pos hk, if_pos hk]
    simp only [Option.map_some']
    have hfe : (l.filter fun r => decide ((r.color, r.month_of_year) = (c, m))) =
        (l.filter fun r => decide (r.color = c ∧ r.month_of_year = m)) := by
      apply List.filter_congr
      intro r hr
      simp [Prod.ext_iff]
    rw [sumCo2, ← hfe]
  · rw [if_neg hk, if_neg hk]
    simp only [Option.map_none']

/-- C6, amended: for every category, the reshaped monthly series consumed
by the chart has exactly 12 entries (months 1 through 12, never omitted),
and entry i is: the (category, month i+1) emissions sum when the category
has rows in that month; an explicit zero when no category at all has rows
in that month (those months are introduced by the reindex with
fill_value 0.0); but a missing (NaN) cell — not a zero — when the month is
populated only by the other category, because reindex does not touch the
NaN cells of months already present in the pivot index. -/
theorem claim_C6 (l : List FeatRow) (c : String) :
    (monthlySeries (monthly l) c).length = 12 ∧
    monthlySeries (monthly l) c =
      (List.range 12).map (fun (i : Nat) =>
        if ∃ r ∈ l, r.color = c ∧ r.month_of_year = (i : Int) + 1 then
          some (sumCo2 l c ((i : Int) + 1))
        else if ∃ r ∈ l, r.month_of_year = (i : Int) + 1 then none
        else some 0) := by
  constructor
  · simp [monthlySeries]
  · rw [monthlySeries]
    apply List.map_congr_left
    intro i hi
    by_cases hA : ∃ r ∈ l, r.color = c ∧ r.month_of_year = (i : Int) + 1
    · have hBm : ((i : Int) + 1) ∈ (monthly l).map (fun x => x.2.1) := by
        rcases hA with ⟨r, hr, hc1, hm1⟩
        exact (monthly_months_mem l _).mpr ⟨r, hr, hm1⟩
      rw [if_pos hBm, if_pos hA, monthly_find?_eq,
          if_pos ((monthKeys_mem l c _).mpr hA), Option.map_some']
    · by_cases hB : ∃ r ∈ l, r.month_of_year = (i : Int) + 1
      · have hBm := (monthly_months_mem l _).mpr hB
        rw [if_pos hBm, if_neg hA, if_pos hB, monthly_find?_eq,
            if_neg (fun hk => hA ((monthKeys_mem l c _).mp hk)), Option.map_none']
      · have hBm : ¬(((i : Int) + 1) ∈ (monthly l).map (fun x => x.2.1)) :=
          fun hmem => hB ((monthly_months_mem l _).mp hmem)
        rw [if_neg hBm, if_neg hA, if_neg hB]

/-- C6 counterexample: yellow has rows only in March while green has a
January row.  January is therefore already in the pivot index, so the
reindex fill does not apply to it and the yellow January cell stays NaN
(`none`), not the explicit zero the claim requires; only the months no
category populates (2 and 4..12) become zeros. -/
theorem claim_C6_counterexample :
    monthlySeries
      (monthly [⟨"yellow", 0, 0, 1, 7, 0, 0, 1, 3⟩, ⟨"green", 0, 0, 1, 4, 0, 0, 1, 1⟩])
      "yellow" =
      [none, some 0, some 7, some 0, some 0, some 0, some 0, some 0, some 0, some 0,
       some 0, some 0] := by
  with_unfolding_all rfl

/- ### Idempotence of the cleaning stage -/

/-- C7: running the full cleaning stage (cast, filter, deduplicate,
combine) twice on the same database state yields the same state as
running it once — the cleaner only reads the raw tables and replaces the
derived ones, so a re-run recomputes identical cleaned output and never
double-counts rows. -/
theorem claim_C7 : ∀ s : DBState, mainClean (mainClean s) = mainClean s := by
  intro s
  obtain ⟨y, g, yc, gc, cc⟩ := s
  cases y <;> cases g <;> rfl

/- ### Failure semantics of the cleaning stage -/

/-- C9, amended: when a step of the cleaning stage raises, the remaining
steps are skipped and the error is caught and only logged: main returns
normally (it is a total function into the new table state), the caller
receives no failure signal, and every table the failing run did not reach
— including a previously good combined table — keeps its prior contents. -/
theorem claim_C9 (s : DBState) (e : String) (herr : (cleanSteps s).2 = some e) :
    mainClean s = (cleanSteps s).1 ∧
    (mainClean s).trips_2024_clean = s.trips_2024_clean := by
  refine ⟨rfl, ?_⟩
  obtain ⟨y, g, yc, gc, cc⟩ := s
  cases y with
  | none => rfl
  | some yraws =>
    cases g with
    | none => rfl
    | some graws => simp [cleanSteps] at herr

/-- C9 witness: the amended behaviour evaluated on a state with a missing
raw table and a previously good combined table. -/
theorem claim_C9_witness :
    mainClean ⟨none, none, none, none,
        some [("yellow", ⟨1704067200, 1704067210, 1, 1, 1, 1, 1, 10⟩)]⟩ =
      (cleanSteps ⟨none, none, none, none,
        some [("yellow", ⟨1704067200, 1704067210, 1, 1, 1, 1, 1, 10⟩)]⟩).1 ∧
    (mainClean ⟨none, none, none, none,
        some [("yellow", ⟨1704067200, 1704067210, 1, 1, 1, 1, 1, 10⟩)]⟩).trips_2024_clean =
      some [("yellow", ⟨1704067200, 1704067210, 1, 1, 1, 1, 1, 10⟩)] :=
  claim_C9 ⟨none, none, none, none,
    some [("yellow", ⟨1704067200, 1704067210, 1, 1, 1, 1, 1, 10⟩)]⟩
    "Catalog Error: Table yellow_trips_2024 does not exist" rfl

/-- C9 counterexample: the raw yellow table is missing, so the cleaning
stage aborts with an error, yet main catches the exception, returns
normally with the state unchanged, and the previously good combined table
is still in place — no failure reaches the caller, refuting the claim
that a failed stage cannot complete silently. -/
theorem claim_C9_counterexample :
    (cleanSteps ⟨none, none, none, none,
        some [("yellow", ⟨1704067200, 1704067210, 1, 1, 1, 1, 1, 10⟩)]⟩).2 =
      some "Catalog Error: Table yellow_trips_2024 does not exist" ∧
    mainClean ⟨none, none, none, none,
        some [("yellow", ⟨1704067200, 1704067210, 1, 1, 1, 1, 1, 10⟩)]⟩ =
      ⟨none, none, none, none,
        some [("yellow", ⟨1704067200, 1704067210, 1, 1, 1, 1, 1, 10⟩)]⟩ := by
  exact ⟨rfl, rfl⟩
